import Mathlib

/-!
Verification development for the matching-engine core of the trading-soft
repository (src/server/orderbook.js plus the command dispatcher in the
server entry file).

Shallow embedding conventions:
* JS numbers are modelled as exact rationals (the spec declares prices and
  cash real-valued and quantities exact multiples of tick after snapping);
  NaN inputs are outside the model.
* A JS `Map` is modelled as an association list in insertion order; `set`
  replaces in place, `delete` removes the entry, new keys append at the end,
  exactly as JS Map iteration order behaves.
* `Order.ts` (a `Date.now()` wall-clock stamp) and `symbol` strings carried
  on orders/trades are not modelled: time priority is the position in the
  per-level FIFO list, and each `OrderBook` value is a single symbol's book.
* Reads through `_pos` are modelled as a defaulted lookup `posGet` (the JS
  getter lazily inserts a `{qty:0, cash:0}` entry on read; no code path in
  the repository ever observes key presence, so the inserted entry is
  indistinguishable from the default).
-/

namespace TradingSoft

/-- Order side, the JS strings 'buy' and 'sell'. -/
inductive Side where
  | buy
  | sell
deriving DecidableEq, Repr

/-- An order record as built by the `Order` constructor in orderbook.js:
`id`, `userId`, `side`, `price` (tick-snapped at placement), original `qty`
and unfilled `leaves`. -/
structure Order where
  id : ℕ
  userId : ℕ
  side : Side
  price : ℚ
  qty : ℚ
  leaves : ℚ
deriving DecidableEq, Repr

/-- A price level: the FIFO queue of orders resting at one price. -/
abbrev Level := List Order

/-- One side of the book: the JS `Map price -> Order[]` as an association
list in insertion order. -/
abbrev PriceMap := List (ℚ × Level)

/-- A per-user position entry `{ qty, cash }`. -/
structure Pos where
  qty : ℚ
  cash : ℚ
deriving DecidableEq, Repr

/-- A trade record `{ price, qty, buyer, seller }` as pushed by
`_recordTrade` (the `ts` clock stamp and constant `symbol` are not
modelled). -/
structure Trade where
  price : ℚ
  qty : ℚ
  buyer : ℕ
  seller : ℕ
deriving DecidableEq, Repr

/-- The part of the book state that fills mutate: the positions ledger
(`userId -> {qty, cash}` association list) and the trades tape. -/
structure Fills where
  positions : List (ℕ × Pos)
  trades : List Trade
deriving DecidableEq, Repr

/-- The `OrderBook` state: tick size, position limit, the two side maps,
the order id sequence and the fill state. -/
structure OrderBook where
  tickSize : ℚ
  posLimit : ℚ
  bids : PriceMap
  asks : PriceMap
  orderIdSeq : ℕ
  positions : List (ℕ × Pos)
  trades : List Trade
deriving DecidableEq, Repr

/-- JS `x || d` on numbers: the fallback replaces a falsy (zero) value. -/
def jsOr (x d : ℚ) : ℚ := if x = 0 then d else x

/-- `snapToTick(px, tick)` from orderbook.js:
`t = Math.max(0.000001, +tick || 0.01); Math.round(px / t) * t`.
JS `Math.round` is `floor (x + 1/2)`, which is Mathlib's `round`. -/
def snapToTick (px tick : ℚ) : ℚ :=
  let t := max (1 / 1000000) (jsOr tick (1 / 100))
  ((round (px / t) : ℤ) : ℚ) * t

/-- Maximum of a list of rationals, `none` on the empty list
(`Math.max(...map.keys())` guarded by `size === 0`). -/
def listMax? : List ℚ → Option ℚ
  | [] => none
  | a :: l =>
    match listMax? l with
    | none => some a
    | some b => some (max a b)

/-- Minimum of a list of rationals, `none` on the empty list. -/
def listMin? : List ℚ → Option ℚ
  | [] => none
  | a :: l =>
    match listMin? l with
    | none => some a
    | some b => some (min a b)

/-- The key list of a side map. -/
def keysOf (m : PriceMap) : List ℚ := m.map Prod.fst

/-- `bestBid`: max key of the bids map, `null` when empty. -/
def bestBidOf (m : PriceMap) : Option ℚ := listMax? (keysOf m)

/-- `bestAsk`: min key of the asks map, `null` when empty. -/
def bestAskOf (m : PriceMap) : Option ℚ := listMin? (keysOf m)

/-- Best opposite price seen by an incoming order: best ask for a buy,
best bid for a sell (`_matchIncoming`'s `best()` closure). -/
def bestOpp (side : Side) (m : PriceMap) : Option ℚ :=
  match side with
  | Side.buy => bestAskOf m
  | Side.sell => bestBidOf m

/-- The crossing predicate of `_matchIncoming`:
buy crosses when `order.price >= px`, sell when `order.price <= px`. -/
def crossesAt (side : Side) (orderPrice px : ℚ) : Bool :=
  match side with
  | Side.buy => decide (orderPrice ≥ px)
  | Side.sell => decide (orderPrice ≤ px)

/-- `map.get(price)` on a side map. -/
def mapGet : PriceMap → ℚ → Option Level
  | [], _ => none
  | e :: rest, p => if e.1 = p then some e.2 else mapGet rest p

/-- `map.set(price, level)`: replace in place, or append a new key. -/
def mapSet : PriceMap → ℚ → Level → PriceMap
  | [], p, v => [(p, v)]
  | e :: rest, p, v => if e.1 = p then (p, v) :: rest else e :: mapSet rest p v

/-- `map.delete(price)`. -/
def mapDelete : PriceMap → ℚ → PriceMap
  | [], _ => []
  | e :: rest, p => if e.1 = p then mapDelete rest p else e :: mapDelete rest p

/-- `map.has(price)`. -/
def mapHas (m : PriceMap) (p : ℚ) : Bool := (mapGet m p).isSome

/-- `pushAtPrice(map, price, order)`: create the level if absent, then
append the order, preserving FIFO. -/
def pushAtPrice (m : PriceMap) (p : ℚ) (o : Order) : PriceMap :=
  mapSet m p ((mapGet m p).getD [] ++ [o])

/-- Read a user's position; missing users read as `{qty: 0, cash: 0}`
(see the header note about `_pos`). -/
def posGet : List (ℕ × Pos) → ℕ → Pos
  | [], _ => { qty := 0, cash := 0 }
  | e :: rest, u => if e.1 = u then e.2 else posGet rest u

/-- Apply a (qty, cash) delta to a user's position, creating the entry on
first touch exactly as `_pos` does on the mutation paths. -/
def posAdd : List (ℕ × Pos) → ℕ → ℚ → ℚ → List (ℕ × Pos)
  | [], u, dq, dc => [(u, { qty := dq, cash := dc })]
  | e :: rest, u, dq, dc =>
    if e.1 = u then (u, { qty := e.2.qty + dq, cash := e.2.cash + dc }) :: rest
    else e :: posAdd rest u dq dc

/-- `_recordTrade`: push onto the tape, dropping the oldest entry beyond
1000 (the `onTrade` callback is the server layer's concern). -/
def recordTrade (ts : List Trade) (t : Trade) : List Trade :=
  let l := ts ++ [t]
  if 1000 < l.length then l.tail else l

/-- The fill bookkeeping shared by `_matchIncoming` and `takeAtPrice`:
buyer gets `+qty` / `-qty*px`, seller gets `-qty` / `+qty*px`, and the
trade is recorded. -/
def applyFill (px qty : ℚ) (buyer seller : ℕ) (st : Fills) : Fills :=
  let ps := posAdd st.positions buyer qty (-(qty * px))
  let ps := posAdd ps seller (-qty) (qty * px)
  { positions := ps,
    trades := recordTrade st.trades { price := px, qty := qty, buyer := buyer, seller := seller } }

/-- `_checkPosLimit(userId, side, incQty)`:
`|qty ± incQty| <= posLimit` (`+` for buy, `-` for sell). -/
def checkPosLimit (ps : List (ℕ × Pos)) (posLimit : ℚ) (userId : ℕ)
    (side : Side) (incQty : ℚ) : Bool :=
  let p := posGet ps userId
  let newQty := match side with
    | Side.buy => p.qty + incQty
    | Side.sell => p.qty - incQty
  decide (|newQty| ≤ posLimit)

/-- The inner level walk of `_matchIncoming`
(`while (order.leaves > 0 && q.length) { ... }`), matching the incoming
order against the FIFO heads of the level resting at price `px`.
Returns the updated fill state, the incoming order and the level.

The source loop re-enters only after the exhausted maker was shifted off
the head; when the maker survives (`maker.leaves !== 0`) the traded
quantity was `min(order.leaves, maker.leaves) = order.leaves`, so
`order.leaves` is `0` and the loop condition fails — that branch therefore
returns directly. -/
def matchLevel (posLimit px : ℚ) : Order → Fills → Level → Fills × Order × Level
  | order, st, [] => (st, order, [])
  | order, st, maker :: rest =>
    if order.leaves ≤ 0 then (st, order, maker :: rest)
    else
      let tradeQty := min order.leaves maker.leaves
      if checkPosLimit st.positions posLimit order.userId order.side tradeQty then
        let order' := { order with leaves := order.leaves - tradeQty }
        let maker' := { maker with leaves := maker.leaves - tradeQty }
        let buyer := if order.side = Side.buy then order.userId else maker.userId
        let seller := if order.side = Side.sell then order.userId else maker.userId
        let st' := applyFill px tradeQty buyer seller st
        if maker'.leaves = 0 then matchLevel posLimit px order' st' rest
        else (st', order', maker' :: rest)
      else
        (st, { order with leaves := 0 }, maker :: rest)

/-- The outer loop of `_matchIncoming`
(`while (order.leaves > 0 && makerMap.size > 0) { ... }`), walking best
opposite levels. The loop re-enters only after the exhausted best level
was deleted from the map, so the number of levels bounds the number of
iterations; the `fuel` parameter is that bound (see
`matchLoopFuel_fuel_irrelevant`). -/
def matchLoopFuel (posLimit : ℚ) : ℕ → Order → PriceMap → Fills → PriceMap × Order × Fills
  | 0, order, m, st => (m, order, st)
  | fuel + 1, order, m, st =>
    if m.isEmpty then (m, order, st)
    else if order.leaves ≤ 0 then (m, order, st)
    else
      match bestOpp order.side m with
      | none => (m, order, st)
      | some px =>
        if crossesAt order.side order.price px then
          let r := matchLevel posLimit px order st ((mapGet m px).getD [])
          if r.2.2 = [] then
            matchLoopFuel posLimit fuel r.2.1 (mapDelete m px) r.1
          else
            (mapSet m px r.2.2, r.2.1, r.1)
        else (m, order, st)

/-- `_matchIncoming` against the opposite-side map `m`: run the outer loop
with fuel `m.length + 1`, which is always sufficient because every
re-entry deletes one level (`matchLoopFuel_fuel_irrelevant`). -/
def matchIncoming (posLimit : ℚ) (order : Order) (m : PriceMap) (st : Fills) :
    PriceMap × Order × Fills :=
  matchLoopFuel posLimit (m.length + 1) order m st

/-- The opposite-side map for an incoming order: a buy matches the asks,
a sell matches the bids. -/
def oppMapOf (ob : OrderBook) : Side → PriceMap
  | Side.buy => ob.asks
  | Side.sell => ob.bids

/-- The own-side map of an order: a buy rests on the bids, a sell on the
asks (also the map targeted by `cancelAtPrice`). -/
def ownMapOf (ob : OrderBook) : Side → PriceMap
  | Side.buy => ob.bids
  | Side.sell => ob.asks

/-- Result of `placeLimit`: either `{rejected: true, reason: "pos_limit"}`
(the only rejection the source produces) or `{orderId: id}`. -/
inductive PlaceResult where
  | rejected
  | accepted (orderId : ℕ)
deriving DecidableEq, Repr

/-- `placeLimit({userId, side, price, qty})`: pre-check the position limit
against the full quantity, then assign the id, snap the price, match
against the opposite side and rest any residual on the own side. -/
def placeLimit (ob : OrderBook) (userId : ℕ) (side : Side) (price qty : ℚ) :
    OrderBook × PlaceResult :=
  if checkPosLimit ob.positions ob.posLimit userId side qty then
    let id := ob.orderIdSeq
    let order : Order :=
      { id := id, userId := userId, side := side,
        price := snapToTick price ob.tickSize, qty := qty, leaves := qty }
    let r := matchIncoming ob.posLimit order (oppMapOf ob side)
      { positions := ob.positions, trades := ob.trades }
    let opp' := r.1
    let order' := r.2.1
    let st' := r.2.2
    let own' :=
      if 0 < order'.leaves then pushAtPrice (ownMapOf ob side) order.price order'
      else ownMapOf ob side
    (match side with
      | Side.buy =>
        { ob with
          bids := own', asks := opp', orderIdSeq := id + 1,
          positions := st'.positions, trades := st'.trades }
      | Side.sell =>
        { ob with
          bids := opp', asks := own', orderIdSeq := id + 1,
          positions := st'.positions, trades := st'.trades },
     PlaceResult.accepted id)
  else (ob, PlaceResult.rejected)

/-- Return value of `takeAtPrice`: the source returns the number `0` on
the early-out paths and the boolean `true` after walking the level. -/
inductive TakeResult where
  | retZero
  | retTrue
deriving DecidableEq, Repr

/-- The starting `remaining` of `takeAtPrice`:
`Math.max(0, +maxQty || 0)` — note the source applies no `floor`. -/
def takeRemaining (maxQty : ℚ) : ℚ := max 0 (jsOr maxQty 0)

/-- The level walk of `takeAtPrice`
(`while (remaining > 0 && q.length) { ... }`). Same head-shift structure
as `matchLevel`: the loop re-enters only after an exhausted maker was
shifted; a surviving maker forces `remaining = 0`, so that branch returns.
A position-limit breach breaks with everything unchanged. -/
def takeLevel (posLimit px : ℚ) (userId : ℕ) (side : Side) :
    ℚ → Fills → Level → Fills × ℚ × Level
  | remaining, st, [] => (st, remaining, [])
  | remaining, st, maker :: rest =>
    if remaining ≤ 0 then (st, remaining, maker :: rest)
    else
      let tradeQty := min remaining maker.leaves
      if checkPosLimit st.positions posLimit userId side tradeQty then
        let maker' := { maker with leaves := maker.leaves - tradeQty }
        let remaining' := remaining - tradeQty
        let buyer := if side = Side.buy then userId else maker.userId
        let seller := if side = Side.sell then userId else maker.userId
        let st' := applyFill px tradeQty buyer seller st
        if maker'.leaves = 0 then takeLevel posLimit px userId side remaining' st' rest
        else (st', remaining', maker' :: rest)
      else (st, remaining, maker :: rest)

/-- `takeAtPrice({userId, side, price, maxQty})`: snap the price, return 0
if the opposite side has no such level or the starting `remaining` is 0;
otherwise walk that single level, delete it if exhausted, and return
`true`. -/
def takeAtPrice (ob : OrderBook) (userId : ℕ) (side : Side) (price maxQty : ℚ) :
    OrderBook × TakeResult :=
  let px := snapToTick price ob.tickSize
  match mapGet (oppMapOf ob side) px with
  | none => (ob, TakeResult.retZero)
  | some q =>
    let remaining := takeRemaining maxQty
    if remaining = 0 then (ob, TakeResult.retZero)
    else
      let r := takeLevel ob.posLimit px userId side remaining
        { positions := ob.positions, trades := ob.trades } q
      let st' := r.1
      let q' := r.2.2
      let opp' := if q' = [] then mapDelete (oppMapOf ob side) px
        else mapSet (oppMapOf ob side) px q'
      (match side with
        | Side.buy =>
          { ob with asks := opp', positions := st'.positions, trades := st'.trades }
        | Side.sell =>
          { ob with bids := opp', positions := st'.positions, trades := st'.trades },
       TakeResult.retTrue)

/-- `cancelAtPrice({userId, side, price})`: snap the price, drop every
order of the caller from the level on the caller's side, delete the level
if it became empty, and return the removed count. The position ledger is
untouched. -/
def cancelAtPrice (ob : OrderBook) (userId : ℕ) (side : Side) (price : ℚ) :
    OrderBook × ℕ :=
  let px := snapToTick price ob.tickSize
  match mapGet (ownMapOf ob side) px with
  | none => (ob, 0)
  | some q =>
    let filtered := q.filter (fun o => decide (o.userId ≠ userId))
    let removed := q.length - filtered.length
    let m' := if filtered.length ≠ 0 then mapSet (ownMapOf ob side) px filtered
      else mapDelete (ownMapOf ob side) px
    (match side with
      | Side.buy => { ob with bids := m' }
      | Side.sell => { ob with asks := m' },
     removed)

/-- The `maxQty` coercion of the `click_trade` dispatcher:
`Math.max(1, +maxQty || 1)` — again no `floor`. -/
def clickTradeMaxQty (input : ℚ) : ℚ := max 1 (jsOr input 1)

/-- A fresh book, as the `OrderBook` constructor builds it. -/
def initBook (tickSize posLimit : ℚ) : OrderBook :=
  { tickSize := tickSize, posLimit := posLimit, bids := [], asks := [],
    orderIdSeq := 1, positions := [], trades := [] }

/-- A trading command against one book: a `placeLimit` or a `takeAtPrice`
call. -/
inductive Cmd where
  | place (userId : ℕ) (side : Side) (price qty : ℚ)
  | take (userId : ℕ) (side : Side) (price maxQty : ℚ)
deriving DecidableEq, Repr

/-- Run one trading command, keeping the resulting book state. -/
def runCmd (ob : OrderBook) : Cmd → OrderBook
  | Cmd.place userId side price qty => (placeLimit ob userId side price qty).1
  | Cmd.take userId side price maxQty => (takeAtPrice ob userId side price maxQty).1

/-- Run a command sequence from a given book state. -/
def runCmds (ob : OrderBook) (cs : List Cmd) : OrderBook := cs.foldl runCmd ob

/-- Sum of `positions.qty` over all users of a book. -/
def sumQty (ps : List (ℕ × Pos)) : ℚ := (ps.map (fun e => e.2.qty)).sum

/-- Sum of `positions.cash` over all users of a book. -/
def sumCash (ps : List (ℕ × Pos)) : ℚ := (ps.map (fun e => e.2.cash)).sum

/-- No empty price level exists in a side map. -/
def noEmptyMap (m : PriceMap) : Prop := ∀ e ∈ m, e.2 ≠ []

instance (m : PriceMap) : Decidable (noEmptyMap m) := by
  unfold noEmptyMap
  infer_instance

/-- A market container of the server layer: lifecycle flag, settlement
price and the book. The source field `open` is called `isOpen` here
because `open` is reserved in Lean; the tape ring, user stats and click
size do not bear on the lifecycle claims and are not modelled. -/
structure Market where
  isOpen : Bool
  settlement : Option ℚ
  book : OrderBook
deriving DecidableEq, Repr

/-- The `symbol -> market` map of one game. -/
abbrev Game := List (String × Market)

/-- Update a market in place if the symbol exists, as the
`const mk = g.markets.get(symbol); if (!mk) return;` prologue of every
market-addressing handler does. -/
def updateMarket (g : Game) (sym : String) (f : Market → Market) : Game :=
  g.map (fun e => if e.1 = sym then (e.1, f e.2) else e)

/-- The full command set of the dispatcher that touches market state.
Role gating is not modelled: the admin commands are taken as issued by
the admin connection, which only enlarges the reachable state space. -/
inductive GCmd where
  | adminToggleMarket (sym : String) (openFlag : Bool)
  | adminToggleAll (openFlag : Bool)
  | adminSettle (sym : String) (price : ℚ)
  | adminSettleAll (priceMap : List (String × ℚ))
  | placeOrder (sym : String) (userId : ℕ) (side : Side) (price qty : ℚ)
  | cancelAt (sym : String) (userId : ℕ) (side : Side) (price : ℚ)
  | clickTrade (sym : String) (userId : ℕ) (side : Side) (price maxQty : ℚ)
deriving DecidableEq, Repr

/-- One step of the socket dispatcher on the markets of a game:
* admin_toggle_market / admin_toggle_all set `open = !!open` with no check
  of `settlement`;
* admin_settle / admin_settle_all snap the price, store it and force
  `open = false`;
* place_order requires the market open and positive price and qty;
* cancel_at_price works on closed markets too;
* click_trade requires the market open and coerces `maxQty`. -/
def stepGame (g : Game) : GCmd → Game
  | GCmd.adminToggleMarket sym b =>
    updateMarket g sym (fun mk => { mk with isOpen := b })
  | GCmd.adminToggleAll b =>
    g.map (fun e => (e.1, { e.2 with isOpen := b }))
  | GCmd.adminSettle sym price =>
    updateMarket g sym (fun mk =>
      { mk with settlement := some (snapToTick price mk.book.tickSize), isOpen := false })
  | GCmd.adminSettleAll pm =>
    pm.foldl (fun g' e =>
      updateMarket g' e.1 (fun mk =>
        { mk with settlement := some (snapToTick e.2 mk.book.tickSize), isOpen := false })) g
  | GCmd.placeOrder sym userId side price qty =>
    updateMarket g sym (fun mk =>
      if mk.isOpen ∧ 0 < price ∧ 0 < qty then
        { mk with book := (placeLimit mk.book userId side price qty).1 }
      else mk)
  | GCmd.cancelAt sym userId side price =>
    updateMarket g sym (fun mk =>
      { mk with book := (cancelAtPrice mk.book userId side price).1 })
  | GCmd.clickTrade sym userId side price maxQty =>
    updateMarket g sym (fun mk =>
      if mk.isOpen then
        { mk with book := (takeAtPrice mk.book userId side price (clickTradeMaxQty maxQty)).1 }
      else mk)

/-- Run a sequence of dispatcher commands. -/
def runGame (g : Game) (cs : List GCmd) : Game := cs.foldl stepGame g

/-- The lifecycle invariant of the spec: while `settlement != null`,
`open == false`, for every market of the game. -/
def settledClosed (g : Game) : Prop :=
  ∀ e ∈ g, e.2.settlement ≠ none → e.2.isOpen = false

instance (g : Game) : Decidable (settledClosed g) := by
  unfold settledClosed
  infer_instance

/-- A command that toggles a market (or all markets) open. -/
def isOpenToggle : GCmd → Prop
  | GCmd.adminToggleMarket _ b => b = true
  | GCmd.adminToggleAll b => b = true
  | _ => False

/-- A market as `ensureGameAdminCreate` builds it:
`open = true`, `settlement = null`, fresh book. -/
def freshMarket (tickSize posLimit : ℚ) : Market :=
  { isOpen := true, settlement := none, book := initBook tickSize posLimit }

/-- A one-market game as created by `admin_create_game` with the default
tick 0.1 and posLimit 100: the start state for the reachability
counterexample. -/
def gameA : Game := [("A", freshMarket (1 / 10) 100)]

/-- Concrete book for the mid-match truncation variant (scenario 6 of the
spec): tick 0.1, posLimit 10, asks holding a resting sell of 20 @ 10.0
from user 1, and user 2 (the prospective taker) long 3. -/
def obC2 : OrderBook :=
  { tickSize := 1 / 10, posLimit := 10, bids := [],
    asks := [(10, [{ id := 1, userId := 1, side := Side.sell,
                     price := 10, qty := 20, leaves := 20 }])],
    orderIdSeq := 2,
    positions := [(2, { qty := 3, cash := -30 }), (1, { qty := -3, cash := 30 })],
    trades := [] }

/-- Concrete book with a single ask level of 3 @ 10.0: tick 0.1,
posLimit 100, used for the fractional `maxQty` run and as witness
state. -/
def obAsk3 : OrderBook :=
  { tickSize := 1 / 10, posLimit := 100, bids := [],
    asks := [(10, [{ id := 1, userId := 1, side := Side.sell,
                     price := 10, qty := 3, leaves := 3 }])],
    orderIdSeq := 2, positions := [], trades := [] }

/-! Lemmas about the side-map primitives. -/

theorem mapGet_mapSet_self (m : PriceMap) (p : ℚ) (v : Level) :
    mapGet (mapSet m p v) p = some v := by
  induction m with
  | nil => simp [mapSet, mapGet]
  | cons e rest ih =>
    by_cases h : e.1 = p
    · simp [mapSet, mapGet, h]
    · simp [mapSet, mapGet, h, ih]

theorem mapGet_mapSet_ne (m : PriceMap) (p p' : ℚ) (v : Level) (h : p' ≠ p) :
    mapGet (mapSet m p v) p' = mapGet m p' := by
  induction m with
  | nil => simp [mapSet, mapGet, Ne.symm h]
  | cons e rest ih =>
    by_cases he : e.1 = p
    · subst he
      simp only [mapSet, if_pos rfl, mapGet]
      rw [if_neg (Ne.symm h), if_neg (Ne.symm h)]
    · simp only [mapSet, if_neg he, mapGet]
      by_cases he' : e.1 = p'
      · simp [he']
      · simp [he', ih]

theorem mapGet_mapDelete_self (m : PriceMap) (p : ℚ) :
    mapGet (mapDelete m p) p = none := by
  induction m with
  | nil => simp [mapDelete, mapGet]
  | cons e rest ih =>
    by_cases h : e.1 = p
    · simp [mapDelete, h, ih]
    · simp [mapDelete, mapGet, h, ih]

theorem mapGet_mapDelete_ne (m : PriceMap) (p p' : ℚ) (h : p' ≠ p) :
    mapGet (mapDelete m p) p' = mapGet m p' := by
  induction m with
  | nil => simp [mapDelete]
  | cons e rest ih =>
    by_cases he : e.1 = p
    · subst he
      simp [mapDelete, mapGet, ih, Ne.symm h]
    · simp only [mapDelete, if_neg he, mapGet]
      by_cases he' : e.1 = p'
      · simp [he']
      · simp [he', ih]

theorem mapSet_same (m : PriceMap) (p : ℚ) (v : Level) (h : mapGet m p = some v) :
    mapSet m p v = m := by
  induction m with
  | nil => simp [mapGet] at h
  | cons e rest ih =>
    by_cases he : e.1 = p
    · obtain ⟨p₀, v₀⟩ := e
      simp only [mapGet, if_pos he] at h
      simp only at he
      subst he
      simp only [Option.some.injEq] at h
      subst h
      simp [mapSet]
    · simp only [mapGet, if_neg he] at h
      simp [mapSet, he, ih h]

theorem mem_mapDelete (m : PriceMap) (p : ℚ) (e : ℚ × Level) (h : e ∈ mapDelete m p) :
    e ∈ m := by
  induction m with
  | nil => simp [mapDelete] at h
  | cons e' rest ih =>
    by_cases he : e'.1 = p
    · simp only [mapDelete, if_pos he] at h
      exact List.mem_cons_of_mem _ (ih h)
    · simp only [mapDelete, if_neg he, List.mem_cons] at h
      rcases h with h | h
      · exact h ▸ List.mem_cons_self _ _
      · exact List.mem_cons_of_mem _ (ih h)

theorem mem_mapSet (m : PriceMap) (p : ℚ) (v : Level) (e : ℚ × Level)
    (h : e ∈ mapSet m p v) : e ∈ m ∨ e = (p, v) := by
  induction m with
  | nil => simpa [mapSet] using h
  | cons e' rest ih =>
    by_cases he : e'.1 = p
    · simp only [mapSet, if_pos he, List.mem_cons] at h
      rcases h with h | h
      · exact Or.inr h
      · exact Or.inl (List.mem_cons_of_mem _ h)
    · simp only [mapSet, if_neg he, List.mem_cons] at h
      rcases h with h | h
      · exact Or.inl (h ▸ List.mem_cons_self _ _)
      · rcases ih h with h' | h'
        · exact Or.inl (List.mem_cons_of_mem _ h')
        · exact Or.inr h'

theorem listMax?_mem (l : List ℚ) (a : ℚ) (h : listMax? l = some a) : a ∈ l := by
  induction l generalizing a with
  | nil => simp [listMax?] at h
  | cons b rest ih =>
    simp only [listMax?] at h
    rcases hr : listMax? rest with _ | c
    · rw [hr] at h
      simp only [Option.some.injEq] at h
      simp [← h]
    · rw [hr] at h
      simp only [Option.some.injEq] at h
      rcases max_choice b c with hm | hm
      · rw [hm] at h
        simp [← h]
      · rw [hm] at h
        exact List.mem_cons_of_mem _ (h ▸ ih c hr)

theorem listMin?_mem (l : List ℚ) (a : ℚ) (h : listMin? l = some a) : a ∈ l := by
  induction l generalizing a with
  | nil => simp [listMin?] at h
  | cons b rest ih =>
    simp only [listMin?] at h
    rcases hr : listMin? rest with _ | c
    · rw [hr] at h
      simp only [Option.some.injEq] at h
      simp [← h]
    · rw [hr] at h
      simp only [Option.some.injEq] at h
      rcases min_choice b c with hm | hm
      · rw [hm] at h
        simp [← h]
      · rw [hm] at h
        exact List.mem_cons_of_mem _ (h ▸ ih c hr)

theorem bestOpp_mem (side : Side) (m : PriceMap) (px : ℚ) (h : bestOpp side m = some px) :
    px ∈ keysOf m := by
  cases side with
  | buy => exact listMin?_mem _ _ h
  | sell => exact listMax?_mem _ _ h

theorem keysOf_mapDelete_subset (m : PriceMap) (p p' : ℚ)
    (h : p' ∈ keysOf (mapDelete m p)) : p' ∈ keysOf m := by
  simp only [keysOf, List.mem_map] at h ⊢
  obtain ⟨e, he, hfst⟩ := h
  exact ⟨e, mem_mapDelete m p e he, hfst⟩

theorem mapDelete_length_lt (m : PriceMap) (p : ℚ) (h : p ∈ keysOf m) :
    (mapDelete m p).length < m.length := by
  induction m with
  | nil => simp [keysOf] at h
  | cons e rest ih =>
    by_cases he : e.1 = p
    · simp only [mapDelete, if_pos he]
      have : (mapDelete rest p).length ≤ rest.length := by
        clear ih h
        induction rest with
        | nil => simp [mapDelete]
        | cons f rest' ih' =>
          by_cases hf : f.1 = p
          · simp only [mapDelete, if_pos hf]
            exact Nat.le_succ_of_le ih'
          · simp only [mapDelete, if_neg hf, List.length_cons]
            exact Nat.succ_le_succ ih'
      simpa using Nat.lt_succ_of_le this
    · have h' : p ∈ keysOf rest := by
        simp only [keysOf, List.map_cons, List.mem_cons] at h
        rcases h with h | h
        · exact absurd h.symm he
        · exact h
      simp only [mapDelete, if_neg he, List.length_cons]
      exact Nat.succ_lt_succ (ih h')

/-! Lemmas about the position ledger. -/

theorem sumQty_posAdd (ps : List (ℕ × Pos)) (u : ℕ) (dq dc : ℚ) :
    sumQty (posAdd ps u dq dc) = sumQty ps + dq := by
  induction ps with
  | nil => simp [posAdd, sumQty]
  | cons e rest ih =>
    by_cases h : e.1 = u
    · simp only [posAdd, if_pos h, sumQty, List.map_cons, List.sum_cons]
      simp only [sumQty] at ih ⊢
      ring
    · simp only [posAdd, if_neg h, sumQty, List.map_cons, List.sum_cons]
      simp only [sumQty] at ih
      rw [ih]
      ring

theorem sumCash_posAdd (ps : List (ℕ × Pos)) (u : ℕ) (dq dc : ℚ) :
    sumCash (posAdd ps u dq dc) = sumCash ps + dc := by
  induction ps with
  | nil => simp [posAdd, sumCash]
  | cons e rest ih =>
    by_cases h : e.1 = u
    · simp only [posAdd, if_pos h, sumCash, List.map_cons, List.sum_cons]
      ring
    · simp only [posAdd, if_neg h, sumCash, List.map_cons, List.sum_cons]
      simp only [sumCash] at ih
      rw [ih]
      ring

theorem posGet_posAdd (ps : List (ℕ × Pos)) (u v : ℕ) (dq dc : ℚ) :
    posGet (posAdd ps u dq dc) v =
      if v = u then
        { qty := (posGet ps u).qty + dq, cash := (posGet ps u).cash + dc }
      else posGet ps v := by
  induction ps with
  | nil =>
    by_cases h : v = u
    · subst h
      simp [posAdd, posGet]
    · simp [posAdd, posGet, h, Ne.symm h]
  | cons e rest ih =>
    by_cases he : e.1 = u
    · by_cases hv : v = u
      · subst hv
        simp [posAdd, posGet, he]
      · simp [posAdd, posGet, he, hv, Ne.symm hv]
    · by_cases hev : e.1 = v
      · have hvu : ¬ v = u := fun hh => he (hev.trans hh)
        simp [posAdd, posGet, he, hev, hvu]
      · simp [posAdd, posGet, he, hev, ih]

/-! Lemmas about fills and trade recording. -/

theorem recordTrade_mem (ts : List Trade) (tr t : Trade) (h : t ∈ recordTrade ts tr) :
    t ∈ ts ∨ t = tr := by
  unfold recordTrade at h
  by_cases hl : 1000 < (ts ++ [tr]).length
  · rw [if_pos hl] at h
    have h' : t ∈ ts ++ [tr] := List.mem_of_mem_tail h
    simpa using h'
  · rw [if_neg hl] at h
    simpa using h

theorem applyFill_sumQty (px q : ℚ) (b s : ℕ) (st : Fills) :
    sumQty (applyFill px q b s st).positions = sumQty st.positions := by
  simp only [applyFill, sumQty_posAdd]
  ring

theorem applyFill_sumCash (px q : ℚ) (b s : ℕ) (st : Fills) :
    sumCash (applyFill px q b s st).positions = sumCash st.positions := by
  simp only [applyFill, sumCash_posAdd]
  ring

theorem applyFill_trades_mem (px q : ℚ) (b s : ℕ) (st : Fills) (t : Trade)
    (h : t ∈ (applyFill px q b s st).trades) :
    t ∈ st.trades ∨ t = { price := px, qty := q, buyer := b, seller := s } := by
  exact recordTrade_mem _ _ _ h

/-- A self-fill (buyer = seller) leaves every user's position unchanged:
the buyer-side and seller-side deltas land on the same ledger entry and
cancel. -/
theorem applyFill_self_posGet (px q : ℚ) (u v : ℕ) (st : Fills) :
    posGet (applyFill px q u u st).positions v = posGet st.positions v := by
  simp only [applyFill, posGet_posAdd]
  by_cases h : v = u
  · simp [h]
  · simp [h]

/-! Lemmas about the inner level walk of the matching loop. -/

theorem matchLevel_sumQty (posLimit px : ℚ) (order : Order) (st : Fills) (q : Level) :
    sumQty (matchLevel posLimit px order st q).1.positions = sumQty st.positions := by
  induction q generalizing order st with
  | nil => simp [matchLevel]
  | cons maker rest ih =>
    simp only [matchLevel]
    by_cases h0 : order.leaves ≤ 0
    · simp [h0]
    · rw [if_neg h0]
      by_cases hc : checkPosLimit st.positions posLimit order.userId order.side
          (min order.leaves maker.leaves)
      · rw [if_pos hc]
        by_cases hm : maker.leaves - min order.leaves maker.leaves = 0
        · rw [if_pos hm, ih, applyFill_sumQty]
        · rw [if_neg hm]
          simp [applyFill_sumQty]
      · simp [hc]

theorem matchLevel_sumCash (posLimit px : ℚ) (order : Order) (st : Fills) (q : Level) :
    sumCash (matchLevel posLimit px order st q).1.positions = sumCash st.positions := by
  induction q generalizing order st with
  | nil => simp [matchLevel]
  | cons maker rest ih =>
    simp only [matchLevel]
    by_cases h0 : order.leaves ≤ 0
    · simp [h0]
    · rw [if_neg h0]
      by_cases hc : checkPosLimit st.positions posLimit order.userId order.side
          (min order.leaves maker.leaves)
      · rw [if_pos hc]
        by_cases hm : maker.leaves - min order.leaves maker.leaves = 0
        · rw [if_pos hm, ih, applyFill_sumCash]
        · rw [if_neg hm]
          simp [applyFill_sumCash]
      · simp [hc]

theorem matchLevel_trades_mem (posLimit px : ℚ) (order : Order) (st : Fills) (q : Level)
    (t : Trade) (h : t ∈ (matchLevel posLimit px order st q).1.trades) :
    t ∈ st.trades ∨ t.price = px := by
  induction q generalizing order st with
  | nil => exact Or.inl (by simpa [matchLevel] using h)
  | cons maker rest ih =>
    simp only [matchLevel] at h
    by_cases h0 : order.leaves ≤ 0
    · rw [if_pos h0] at h
      exact Or.inl h
    · rw [if_neg h0] at h
      by_cases hc : checkPosLimit st.positions posLimit order.userId order.side
          (min order.leaves maker.leaves)
      · rw [if_pos hc] at h
        by_cases hm : maker.leaves - min order.leaves maker.leaves = 0
        · rw [if_pos hm] at h
          rcases ih _ _ h with h' | h'
          · rcases applyFill_trades_mem _ _ _ _ _ _ h' with h'' | h''
            · exact Or.inl h''
            · exact Or.inr (by rw [h''])
          · exact Or.inr h'
        · rw [if_neg hm] at h
          rcases applyFill_trades_mem _ _ _ _ _ _ h with h'' | h''
          · exact Or.inl h''
          · exact Or.inr (by rw [h''])
      · rw [if_neg hc] at h
        exact Or.inl h

/-! Lemmas about the outer matching loop. -/

theorem matchLoopFuel_sumQty (posLimit : ℚ) (fuel : ℕ) (order : Order) (m : PriceMap)
    (st : Fills) :
    sumQty (matchLoopFuel posLimit fuel order m st).2.2.positions = sumQty st.positions := by
  induction fuel generalizing order m st with
  | zero => simp [matchLoopFuel]
  | succ fuel ih =>
    simp only [matchLoopFuel]
    by_cases hm : m.isEmpty
    · simp [hm]
    · rw [if_neg hm]
      by_cases h0 : order.leaves ≤ 0
      · simp [h0]
      · rw [if_neg h0]
        rcases hpx : bestOpp order.side m with _ | px
        · simp
        · simp only
          by_cases hcr : crossesAt order.side order.price px
          · rw [if_pos hcr]
            by_cases hq : (matchLevel posLimit px order st ((mapGet m px).getD [])).2.2 = []
            · rw [if_pos hq, ih, matchLevel_sumQty]
            · rw [if_neg hq]
              simp [matchLevel_sumQty]
          · simp [hcr]

theorem matchLoopFuel_sumCash (posLimit : ℚ) (fuel : ℕ) (order : Order) (m : PriceMap)
    (st : Fills) :
    sumCash (matchLoopFuel posLimit fuel order m st).2.2.positions = sumCash st.positions := by
  induction fuel generalizing order m st with
  | zero => simp [matchLoopFuel]
  | succ fuel ih =>
    simp only [matchLoopFuel]
    by_cases hm : m.isEmpty
    · simp [hm]
    · rw [if_neg hm]
      by_cases h0 : order.leaves ≤ 0
      · simp [h0]
      · rw [if_neg h0]
        rcases hpx : bestOpp order.side m with _ | px
        · simp
        · simp only
          by_cases hcr : crossesAt order.side order.price px
          · rw [if_pos hcr]
            by_cases hq : (matchLevel posLimit px order st ((mapGet m px).getD [])).2.2 = []
            · rw [if_pos hq, ih, matchLevel_sumCash]
            · rw [if_neg hq]
              simp [matchLevel_sumCash]
          · simp [hcr]

theorem matchLoopFuel_trades_mem (posLimit : ℚ) (fuel : ℕ) (order : Order) (m : PriceMap)
    (st : Fills) (t : Trade)
    (h : t ∈ (matchLoopFuel posLimit fuel order m st).2.2.trades) :
    t ∈ st.trades ∨ t.price ∈ keysOf m := by
  induction fuel generalizing order m st with
  | zero => exact Or.inl (by simpa [matchLoopFuel] using h)
  | succ fuel ih =>
    simp only [matchLoopFuel] at h
    by_cases hm : m.isEmpty
    · rw [if_pos hm] at h
      exact Or.inl h
    · rw [if_neg hm] at h
      by_cases h0 : order.leaves ≤ 0
      · rw [if_pos h0] at h
        exact Or.inl h
      · rw [if_neg h0] at h
        rcases hpx : bestOpp order.side m with _ | px
        · rw [hpx] at h
          exact Or.inl h
        · rw [hpx] at h
          simp only at h
          by_cases hcr : crossesAt order.side order.price px
          · rw [if_pos hcr] at h
            by_cases hq : (matchLevel posLimit px order st ((mapGet m px).getD [])).2.2 = []
            · rw [if_pos hq] at h
              rcases ih _ _ _ h with h' | h'
              · rcases matchLevel_trades_mem _ _ _ _ _ _ h' with h'' | h''
                · exact Or.inl h''
                · exact Or.inr (h'' ▸ bestOpp_mem _ _ _ hpx)
              · exact Or.inr (keysOf_mapDelete_subset _ _ _ h')
            · rw [if_neg hq] at h
              rcases matchLevel_trades_mem _ _ _ _ _ _ h with h'' | h''
              · exact Or.inl h''
              · exact Or.inr (h'' ▸ bestOpp_mem _ _ _ hpx)
          · rw [if_neg hcr] at h
            exact Or.inl h

/-! Lemmas about the click-take level walk. -/

theorem takeLevel_sumQty (posLimit px : ℚ) (userId : ℕ) (side : Side) (remaining : ℚ)
    (st : Fills) (q : Level) :
    sumQty (takeLevel posLimit px userId side remaining st q).1.positions
      = sumQty st.positions := by
  induction q generalizing remaining st with
  | nil => simp [takeLevel]
  | cons maker rest ih =>
    simp only [takeLevel]
    by_cases h0 : remaining ≤ 0
    · simp [h0]
    · rw [if_neg h0]
      by_cases hc : checkPosLimit st.positions posLimit userId side
          (min remaining maker.leaves)
      · rw [if_pos hc]
        by_cases hm : maker.leaves - min remaining maker.leaves = 0
        · rw [if_pos hm, ih, applyFill_sumQty]
        · rw [if_neg hm]
          simp [applyFill_sumQty]
      · simp [hc]

theorem takeLevel_sumCash (posLimit px : ℚ) (userId : ℕ) (side : Side) (remaining : ℚ)
    (st : Fills) (q : Level) :
    sumCash (takeLevel posLimit px userId side remaining st q).1.positions
      = sumCash st.positions := by
  induction q generalizing remaining st with
  | nil => simp [takeLevel]
  | cons maker rest ih =>
    simp only [takeLevel]
    by_cases h0 : remaining ≤ 0
    · simp [h0]
    · rw [if_neg h0]
      by_cases hc : checkPosLimit st.positions posLimit userId side
          (min remaining maker.leaves)
      · rw [if_pos hc]
        by_cases hm : maker.leaves - min remaining maker.leaves = 0
        · rw [if_pos hm, ih, applyFill_sumCash]
        · rw [if_neg hm]
          simp [applyFill_sumCash]
      · simp [hc]

theorem takeLevel_trades_mem (posLimit px : ℚ) (userId : ℕ) (side : Side) (remaining : ℚ)
    (st : Fills) (q : Level) (t : Trade)
    (h : t ∈ (takeLevel posLimit px userId side remaining st q).1.trades) :
    t ∈ st.trades ∨ t.price = px := by
  induction q generalizing remaining st with
  | nil => exact Or.inl (by simpa [takeLevel] using h)
  | cons maker rest ih =>
    simp only [takeLevel] at h
    by_cases h0 : remaining ≤ 0
    · rw [if_pos h0] at h
      exact Or.inl h
    · rw [if_neg h0] at h
      by_cases hc : checkPosLimit st.positions posLimit userId side
          (min remaining maker.leaves)
      · rw [if_pos hc] at h
        by_cases hm : maker.leaves - min remaining maker.leaves = 0
        · rw [if_pos hm] at h
          rcases ih _ _ h with h' | h'
          · rcases applyFill_trades_mem _ _ _ _ _ _ h' with h'' | h''
            · exact Or.inl h''
            · exact Or.inr (by rw [h''])
          · exact Or.inr h'
        · rw [if_neg hm] at h
          rcases applyFill_trades_mem _ _ _ _ _ _ h with h'' | h''
          · exact Or.inl h''
          · exact Or.inr (by rw [h''])
      · rw [if_neg hc] at h
        exact Or.inl h

/-! Lemmas about the no-empty-level invariant. -/

theorem noEmptyMap_mapDelete (m : PriceMap) (p : ℚ) (h : noEmptyMap m) :
    noEmptyMap (mapDelete m p) :=
  fun e he => h e (mem_mapDelete m p e he)

theorem noEmptyMap_mapSet (m : PriceMap) (p : ℚ) (v : Level) (h : noEmptyMap m)
    (hv : v ≠ []) : noEmptyMap (mapSet m p v) := by
  intro e he
  rcases mem_mapSet m p v e he with h' | h'
  · exact h e h'
  · rw [h']
    exact hv

theorem noEmptyMap_pushAtPrice (m : PriceMap) (p : ℚ) (o : Order) (h : noEmptyMap m) :
    noEmptyMap (pushAtPrice m p o) := by
  unfold pushAtPrice
  exact noEmptyMap_mapSet m p _ h (by simp)

theorem matchLoopFuel_noEmpty (posLimit : ℚ) (fuel : ℕ) (order : Order) (m : PriceMap)
    (st : Fills) (h : noEmptyMap m) :
    noEmptyMap (matchLoopFuel posLimit fuel order m st).1 := by
  induction fuel generalizing order m st with
  | zero => simpa [matchLoopFuel] using h
  | succ fuel ih =>
    simp only [matchLoopFuel]
    by_cases hm : m.isEmpty
    · simpa [hm] using h
    · rw [if_neg hm]
      by_cases h0 : order.leaves ≤ 0
      · simpa [h0] using h
      · rw [if_neg h0]
        rcases hpx : bestOpp order.side m with _ | px
        · simpa using h
        · simp only
          by_cases hcr : crossesAt order.side order.price px
          · rw [if_pos hcr]
            by_cases hq : (matchLevel posLimit px order st ((mapGet m px).getD [])).2.2 = []
            · rw [if_pos hq]
              exact ih _ _ _ (noEmptyMap_mapDelete m px h)
            · rw [if_neg hq]
              exact noEmptyMap_mapSet m px _ h hq
          · simpa [hcr] using h

/-- Fuel irrelevance for the outer matching loop: any fuel above the
number of price levels gives the same result, because every loop re-entry
deletes one level. This discharges the adequacy of the `m.length + 1`
fuel used by `matchIncoming`. -/
theorem matchLoopFuel_fuel_irrelevant (posLimit : ℚ) (f₁ f₂ : ℕ) (order : Order)
    (m : PriceMap) (st : Fills) (h₁ : m.length < f₁) (h₂ : m.length < f₂) :
    matchLoopFuel posLimit f₁ order m st = matchLoopFuel posLimit f₂ order m st := by
  induction f₁ generalizing f₂ order m st with
  | zero => exact absurd h₁ (Nat.not_lt_zero _)
  | succ f₁ ih =>
    rcases f₂ with _ | f₂
    · exact absurd h₂ (Nat.not_lt_zero _)
    · simp only [matchLoopFuel]
      by_cases hm : m.isEmpty
      · simp [hm]
      · rw [if_neg hm, if_neg hm]
        by_cases h0 : order.leaves ≤ 0
        · simp [h0]
        · rw [if_neg h0, if_neg h0]
          rcases hpx : bestOpp order.side m with _ | px
          · simp
          · simp only
            by_cases hcr : crossesAt order.side order.price px
            · rw [if_pos hcr, if_pos hcr]
              by_cases hq : (matchLevel posLimit px order st ((mapGet m px).getD [])).2.2 = []
              · rw [if_pos hq, if_pos hq]
                have hlt : (mapDelete m px).length < m.length :=
                  mapDelete_length_lt m px (bestOpp_mem _ _ _ hpx)
                exact ih _ _ _ _ (Nat.lt_of_lt_of_le hlt (Nat.lt_succ_iff.mp h₁))
                  (Nat.lt_of_lt_of_le hlt (Nat.lt_succ_iff.mp h₂))
              · rw [if_neg hq, if_neg hq]
            · rw [if_neg hcr, if_neg hcr]

/-! Operation-level lemmas. -/

theorem placeLimit_sumQty (ob : OrderBook) (u : ℕ) (side : Side) (price qty : ℚ) :
    sumQty (placeLimit ob u side price qty).1.positions = sumQty ob.positions := by
  by_cases hc : checkPosLimit ob.positions ob.posLimit u side qty
  · cases side <;>
      simp [placeLimit, hc, matchIncoming, matchLoopFuel_sumQty]
  · simp [placeLimit, hc]

theorem placeLimit_sumCash (ob : OrderBook) (u : ℕ) (side : Side) (price qty : ℚ) :
    sumCash (placeLimit ob u side price qty).1.positions = sumCash ob.positions := by
  by_cases hc : checkPosLimit ob.positions ob.posLimit u side qty
  · cases side <;>
      simp [placeLimit, hc, matchIncoming, matchLoopFuel_sumCash]
  · simp [placeLimit, hc]

theorem takeAtPrice_sumQty (ob : OrderBook) (u : ℕ) (side : Side) (price maxQty : ℚ) :
    sumQty (takeAtPrice ob u side price maxQty).1.positions = sumQty ob.positions := by
  rcases hg : mapGet (oppMapOf ob side) (snapToTick price ob.tickSize) with _ | q
  · simp [takeAtPrice, hg]
  · by_cases hr : takeRemaining maxQty = 0
    · simp [takeAtPrice, hg, hr]
    · cases side with
      | buy =>
        simp only [oppMapOf] at hg
        simp [takeAtPrice, oppMapOf, hg, hr, takeLevel_sumQty]
      | sell =>
        simp only [oppMapOf] at hg
        simp [takeAtPrice, oppMapOf, hg, hr, takeLevel_sumQty]

theorem takeAtPrice_sumCash (ob : OrderBook) (u : ℕ) (side : Side) (price maxQty : ℚ) :
    sumCash (takeAtPrice ob u side price maxQty).1.positions = sumCash ob.positions := by
  rcases hg : mapGet (oppMapOf ob side) (snapToTick price ob.tickSize) with _ | q
  · simp [takeAtPrice, hg]
  · by_cases hr : takeRemaining maxQty = 0
    · simp [takeAtPrice, hg, hr]
    · cases side with
      | buy =>
        simp only [oppMapOf] at hg
        simp [takeAtPrice, oppMapOf, hg, hr, takeLevel_sumCash]
      | sell =>
        simp only [oppMapOf] at hg
        simp [takeAtPrice, oppMapOf, hg, hr, takeLevel_sumCash]

theorem cancelAtPrice_positions (ob : OrderBook) (u : ℕ) (side : Side) (price : ℚ) :
    (cancelAtPrice ob u side price).1.positions = ob.positions := by
  rcases hg : mapGet (ownMapOf ob side) (snapToTick price ob.tickSize) with _ | q
  · simp [cancelAtPrice, hg]
  · cases side <;> simp [cancelAtPrice, ownMapOf, hg] <;> split <;> rfl

theorem placeLimit_noEmpty (ob : OrderBook) (u : ℕ) (side : Side) (price qty : ℚ)
    (hb : noEmptyMap ob.bids) (ha : noEmptyMap ob.asks) :
    noEmptyMap (placeLimit ob u side price qty).1.bids ∧
      noEmptyMap (placeLimit ob u side price qty).1.asks := by
  by_cases hc : checkPosLimit ob.positions ob.posLimit u side qty
  · cases side with
    | buy =>
      simp only [placeLimit, hc, if_true, matchIncoming, ownMapOf, oppMapOf]
      constructor
      · split
        · exact noEmptyMap_pushAtPrice _ _ _ hb
        · exact hb
      · exact matchLoopFuel_noEmpty _ _ _ _ _ ha
    | sell =>
      simp only [placeLimit, hc, if_true, matchIncoming, ownMapOf, oppMapOf]
      constructor
      · exact matchLoopFuel_noEmpty _ _ _ _ _ hb
      · split
        · exact noEmptyMap_pushAtPrice _ _ _ ha
        · exact ha
  · simp only [placeLimit, hc]
    exact ⟨hb, ha⟩

theorem takeAtPrice_noEmpty (ob : OrderBook) (u : ℕ) (side : Side) (price maxQty : ℚ)
    (hb : noEmptyMap ob.bids) (ha : noEmptyMap ob.asks) :
    noEmptyMap (takeAtPrice ob u side price maxQty).1.bids ∧
      noEmptyMap (takeAtPrice ob u side price maxQty).1.asks := by
  rcases hg : mapGet (oppMapOf ob side) (snapToTick price ob.tickSize) with _ | q
  · simp only [takeAtPrice, hg]
    exact ⟨hb, ha⟩
  · by_cases hr : takeRemaining maxQty = 0
    · simp only [takeAtPrice, hg, hr, if_true]
      exact ⟨hb, ha⟩
    · cases side with
      | buy =>
        simp only [oppMapOf] at hg
        simp only [takeAtPrice, oppMapOf, hg, hr, if_false, if_neg hr]
        refine ⟨hb, ?_⟩
        split
        · exact noEmptyMap_mapDelete _ _ ha
        · next hq => exact noEmptyMap_mapSet _ _ _ ha hq
      | sell =>
        simp only [oppMapOf] at hg
        simp only [takeAtPrice, oppMapOf, hg, hr, if_false, if_neg hr]
        refine ⟨?_, ha⟩
        split
        · exact noEmptyMap_mapDelete _ _ hb
        · next hq => exact noEmptyMap_mapSet _ _ _ hb hq

theorem cancelAtPrice_noEmpty (ob : OrderBook) (u : ℕ) (side : Side) (price : ℚ)
    (hb : noEmptyMap ob.bids) (ha : noEmptyMap ob.asks) :
    noEmptyMap (cancelAtPrice ob u side price).1.bids ∧
      noEmptyMap (cancelAtPrice ob u side price).1.asks := by
  rcases hg : mapGet (ownMapOf ob side) (snapToTick price ob.tickSize) with _ | q
  · simp only [cancelAtPrice, hg]
    exact ⟨hb, ha⟩
  · cases side with
    | buy =>
      simp only [ownMapOf] at hg
      simp only [cancelAtPrice, ownMapOf, hg]
      refine ⟨?_, ha⟩
      split
      · next hl =>
        exact noEmptyMap_mapSet _ _ _ hb (by
          intro hnil
          rw [hnil] at hl
          simp at hl)
      · exact noEmptyMap_mapDelete _ _ hb
    | sell =>
      simp only [ownMapOf] at hg
      simp only [cancelAtPrice, ownMapOf, hg]
      refine ⟨hb, ?_⟩
      split
      · next hl =>
        exact noEmptyMap_mapSet _ _ _ ha (by
          intro hnil
          rw [hnil] at hl
          simp at hl)
      · exact noEmptyMap_mapDelete _ _ ha

theorem takeAtPrice_trades_mem (ob : OrderBook) (u : ℕ) (side : Side) (price maxQty : ℚ)
    (t : Trade) (h : t ∈ (takeAtPrice ob u side price maxQty).1.trades) :
    t ∈ ob.trades ∨ t.price = snapToTick price ob.tickSize := by
  rcases hg : mapGet (oppMapOf ob side) (snapToTick price ob.tickSize) with _ | q
  · simp only [takeAtPrice, hg] at h
    exact Or.inl h
  · by_cases hr : takeRemaining maxQty = 0
    · simp only [takeAtPrice, hg, hr, if_true] at h
      exact Or.inl h
    · cases side with
      | buy =>
        simp only [oppMapOf] at hg
        simp only [takeAtPrice, oppMapOf, hg, if_neg hr] at h
        exact takeLevel_trades_mem _ _ _ _ _ _ _ _ h
      | sell =>
        simp only [oppMapOf] at hg
        simp only [takeAtPrice, oppMapOf, hg, if_neg hr] at h
        exact takeLevel_trades_mem _ _ _ _ _ _ _ _ h

/-! Lemmas about the game layer. -/

theorem settledClosed_updateMarket (g : Game) (sym : String) (f : Market → Market)
    (hg : settledClosed g)
    (hf : ∀ mk : Market, (mk.settlement ≠ none → mk.isOpen = false) →
      ((f mk).settlement ≠ none → (f mk).isOpen = false)) :
    settledClosed (updateMarket g sym f) := by
  intro e he
  unfold updateMarket at he
  rw [List.mem_map] at he
  obtain ⟨e₀, he₀, heq⟩ := he
  by_cases h : e₀.1 = sym
  · rw [if_pos h] at heq
    rw [← heq]
    exact hf e₀.2 (hg e₀ he₀)
  · rw [if_neg h] at heq
    rw [← heq]
    exact hg e₀ he₀

theorem settledClosed_settleAllFold (pm : List (String × ℚ)) (g : Game)
    (hg : settledClosed g) :
    settledClosed (pm.foldl (fun g' e =>
      updateMarket g' e.1 (fun mk =>
        { mk with settlement := some (snapToTick e.2 mk.book.tickSize),
                  isOpen := false })) g) := by
  induction pm generalizing g with
  | nil => exact hg
  | cons e rest ih =>
    exact ih _ (settledClosed_updateMarket _ _ _ hg (fun mk _ _ => rfl))

/-! Lemmas about cancellation. -/

theorem filter_ne_user_idem (q : Level) (u : ℕ) :
    (q.filter (fun o => decide (o.userId ≠ u))).filter (fun o => decide (o.userId ≠ u))
      = q.filter (fun o => decide (o.userId ≠ u)) := by
  induction q with
  | nil => simp
  | cons o rest ih =>
    by_cases h : o.userId = u
    · simp [List.filter_cons, h, ih]
    · simp [List.filter_cons, h, ih]

theorem countP_add_filter_length (q : Level) (u : ℕ) :
    q.countP (fun o => decide (o.userId = u))
      + (q.filter (fun o => decide (o.userId ≠ u))).length = q.length := by
  induction q with
  | nil => simp
  | cons o rest ih =>
    simp only [List.countP_cons, List.filter_cons]
    by_cases h : o.userId = u
    · rw [decide_eq_true h, decide_eq_false (fun hne => hne h)]
      simp only [if_true, Bool.false_eq_true, if_false, List.length_cons]
      omega
    · rw [decide_eq_false h, decide_eq_true h]
      simp only [if_true, Bool.false_eq_true, if_false, List.length_cons]
      omega

theorem runCmd_sumQty (ob : OrderBook) (c : Cmd) :
    sumQty (runCmd ob c).positions = sumQty ob.positions := by
  cases c with
  | place u side price qty => exact placeLimit_sumQty ob u side price qty
  | take u side price maxQty => exact takeAtPrice_sumQty ob u side price maxQty

theorem runCmd_sumCash (ob : OrderBook) (c : Cmd) :
    sumCash (runCmd ob c).positions = sumCash ob.positions := by
  cases c with
  | place u side price qty => exact placeLimit_sumCash ob u side price qty
  | take u side price maxQty => exact takeAtPrice_sumCash ob u side price maxQty

theorem runCmds_sumQty (cs : List Cmd) (ob : OrderBook) :
    sumQty (runCmds ob cs).positions = sumQty ob.positions := by
  induction cs generalizing ob with
  | nil => rfl
  | cons c rest ih =>
    show sumQty (runCmds (runCmd ob c) rest).positions = sumQty ob.positions
    rw [ih, runCmd_sumQty]

theorem runCmds_sumCash (cs : List Cmd) (ob : OrderBook) :
    sumCash (runCmds ob cs).positions = sumCash ob.positions := by
  induction cs generalizing ob with
  | nil => rfl
  | cons c rest ih =>
    show sumCash (runCmds (runCmd ob c) rest).positions = sumCash ob.positions
    rw [ih, runCmd_sumCash]

/-! Claim theorems. -/

/-- C1: for every market (any tick size and position limit) and every
sequence of placeLimit and takeAtPrice calls starting from the fresh
book, the sum of positions.qty over all users is 0 and the sum of
positions.cash over all users is 0 — each fill credits the buyer and
debits the seller by the same qty and cash amounts. -/
theorem positions_sum_zero_over_runs (tickSize posLimit : ℚ) (cs : List Cmd) :
    sumQty (runCmds (initBook tickSize posLimit) cs).positions = 0 ∧
      sumCash (runCmds (initBook tickSize posLimit) cs).positions = 0 := by
  rw [runCmds_sumQty, runCmds_sumCash]
  exact ⟨rfl, rfl⟩

/-- C2 counterexample: in the spec's mid-match truncation test variant
(posLimit 10, taker already long 3, buy 10 @ 10.0 against asks of
20 @ 10.0) the pre-check does NOT pass and nothing fills: the call is
rejected and the taker's position stays at +3 instead of reaching +10. -/
theorem midmatch_variant_precheck_rejects :
    (placeLimit obC2 2 Side.buy 10 10).2 = PlaceResult.rejected ∧
      posGet (placeLimit obC2 2 Side.buy 10 10).1.positions 2
        = { qty := 3, cash := -30 } := by
  constructor
  · with_unfolding_all decide
  · with_unfolding_all decide

/-- C2 (amended): with posLimit 10 and the taker long 3, a buy of
10 @ 10.0 against asks of 20 @ 10.0 fails the pre-check
(|3 + 10| = 13 > 10), is rejected with reason pos_limit, fills nothing,
rests nothing, and leaves the book state unchanged. -/
theorem midmatch_variant_rejected_no_change :
    placeLimit obC2 2 Side.buy 10 10 = (obC2, PlaceResult.rejected) := by
  with_unfolding_all decide

/-- C3: a placeLimit call whose full quantity would push |position|
past posLimit returns the pos_limit rejection and leaves the entire book
state — side maps, positions, trades and the order id sequence — exactly
as it was, so the next accepted order receives the id this call would
have taken. -/
theorem placeLimit_pos_limit_reject_no_change (ob : OrderBook) (u : ℕ) (side : Side)
    (price qty : ℚ)
    (h : ob.posLimit <
      abs (match side with
        | Side.buy => (posGet ob.positions u).qty + qty
        | Side.sell => (posGet ob.positions u).qty - qty)) :
    placeLimit ob u side price qty = (ob, PlaceResult.rejected) := by
  have hc : checkPosLimit ob.positions ob.posLimit u side qty = false := by
    cases side with
    | buy =>
      simp only [checkPosLimit, decide_eq_false_iff_not, not_le]
      exact h
    | sell =>
      simp only [checkPosLimit, decide_eq_false_iff_not, not_le]
      exact h
  simp [placeLimit, hc]

/-- Witness for C3 at a concrete state: user 1 is short 3 with
posLimit 10, so selling 10 more would reach |−13| and is rejected
without any state change. -/
theorem placeLimit_pos_limit_reject_no_change_witness :
    obC2.posLimit < abs ((posGet obC2.positions 1).qty - 10) ∧
      placeLimit obC2 1 Side.sell 10 10 = (obC2, PlaceResult.rejected) :=
  ⟨by with_unfolding_all decide,
    placeLimit_pos_limit_reject_no_change obC2 1 Side.sell 10 10
      (by with_unfolding_all decide)⟩

/-- C4 counterexample: from a freshly created one-market game, the
reachable command sequence admin_settle(A, 10) followed by
admin_toggle_market(A, open=true) produces a state with
settlement = 10 and open = true, violating the claimed invariant. -/
theorem settled_market_reopened :
    runGame gameA [GCmd.adminSettle "A" 10, GCmd.adminToggleMarket "A" true]
        = [("A", { isOpen := true, settlement := some 10, book := initBook (1 / 10) 100 })] ∧
      ¬ settledClosed
        (runGame gameA [GCmd.adminSettle "A" 10, GCmd.adminToggleMarket "A" true]) := by
  constructor
  · with_unfolding_all decide
  · with_unfolding_all decide

/-- C4 (amended): settlement forces a market closed, and the invariant
"settlement != null implies open == false" is preserved by every
dispatcher command except admin_toggle_market / admin_toggle_all with
open = true; those reopen settled markets (see the counterexample), so
the invariant does not hold over the full command set. -/
theorem settled_closed_preserved_without_reopen (g : Game) (cmd : GCmd)
    (hg : settledClosed g) (hc : ¬ isOpenToggle cmd) :
    settledClosed (stepGame g cmd) := by
  cases cmd with
  | adminToggleMarket sym b =>
    have hb : b = false := by
      cases b
      · rfl
      · exact absurd rfl hc
    subst hb
    simp only [stepGame]
    exact settledClosed_updateMarket _ _ _ hg (fun mk _ _ => rfl)
  | adminToggleAll b =>
    have hb : b = false := by
      cases b
      · rfl
      · exact absurd rfl hc
    subst hb
    intro e he
    simp only [stepGame, List.mem_map] at he
    obtain ⟨e₀, _, heq⟩ := he
    rw [← heq]
    intro _
    rfl
  | adminSettle sym price =>
    simp only [stepGame]
    exact settledClosed_updateMarket _ _ _ hg (fun mk _ _ => rfl)
  | adminSettleAll pm =>
    simp only [stepGame]
    exact settledClosed_settleAllFold pm g hg
  | placeOrder sym uid side price qty =>
    simp only [stepGame]
    refine settledClosed_updateMarket _ _ _ hg (fun mk hmk => ?_)
    by_cases hcnd : mk.isOpen = true ∧ 0 < price ∧ 0 < qty
    · simp only [if_pos hcnd]
      exact hmk
    · simp only [if_neg hcnd]
      exact hmk
  | cancelAt sym uid side price =>
    simp only [stepGame]
    exact settledClosed_updateMarket _ _ _ hg (fun mk hmk => hmk)
  | clickTrade sym uid side price maxQty =>
    simp only [stepGame]
    refine settledClosed_updateMarket _ _ _ hg (fun mk hmk => ?_)
    by_cases hcnd : mk.isOpen = true
    · simp only [if_pos hcnd]
      exact hmk
    · simp only [if_neg hcnd]
      exact hmk

/-- Witness for the amended C4: settling market A in the fresh game
yields a state that satisfies the invariant. -/
theorem settled_closed_preserved_without_reopen_witness :
    settledClosed (stepGame gameA (GCmd.adminSettle "A" 10)) :=
  settled_closed_preserved_without_reopen gameA (GCmd.adminSettle "A" 10)
    (by with_unfolding_all decide) (fun h => h)

/-- C5: every trade present after a placeLimit call was either already
on the tape or carries a price that was a resting level of the opposite
side at call time — the fill price is always the resting maker's price,
never the aggressor's limit when the two differ (the aggressor's price
is a maker-level key only if such a level rests). -/
theorem placeLimit_trade_price_is_makers (ob : OrderBook) (u : ℕ) (side : Side)
    (price qty : ℚ) (t : Trade)
    (h : t ∈ (placeLimit ob u side price qty).1.trades) :
    t ∈ ob.trades ∨ t.price ∈ keysOf (oppMapOf ob side) := by
  by_cases hc : checkPosLimit ob.positions ob.posLimit u side qty
  · cases side with
    | buy =>
      simp only [oppMapOf]
      simp [placeLimit, hc, matchIncoming, oppMapOf] at h
      exact matchLoopFuel_trades_mem _ _ _ _ _ _ h
    | sell =>
      simp only [oppMapOf]
      simp [placeLimit, hc, matchIncoming, oppMapOf] at h
      exact matchLoopFuel_trades_mem _ _ _ _ _ _ h
  · simp [placeLimit, hc] at h
    exact Or.inl h

/-- Witness for C5: the single trade of a concrete crossing buy carries
the resting ask's price. -/
theorem placeLimit_trade_price_is_makers_witness :
    ({ price := 10, qty := 2, buyer := 2, seller := 1 } : Trade) ∈ obAsk3.trades ∨
      ({ price := 10, qty := 2, buyer := 2, seller := 1 } : Trade).price
        ∈ keysOf (oppMapOf obAsk3 Side.buy) :=
  placeLimit_trade_price_is_makers obAsk3 2 Side.buy 10 2 _
    (by with_unfolding_all decide)

/-- C6: takeAtPrice targets exactly the one opposite-side level at
snap(price, tick): it returns 0 and changes nothing when that level is
absent, every trade it emits carries the snapped price, the caller's own
side map is untouched, and every opposite-side level at any other price
is untouched. -/
theorem takeAtPrice_single_level_frame (ob : OrderBook) (u : ℕ) (side : Side)
    (price maxQty : ℚ) :
    (mapGet (oppMapOf ob side) (snapToTick price ob.tickSize) = none →
        takeAtPrice ob u side price maxQty = (ob, TakeResult.retZero)) ∧
    (∀ t ∈ (takeAtPrice ob u side price maxQty).1.trades,
        t ∈ ob.trades ∨ t.price = snapToTick price ob.tickSize) ∧
    ownMapOf (takeAtPrice ob u side price maxQty).1 side = ownMapOf ob side ∧
    (∀ p', p' ≠ snapToTick price ob.tickSize →
        mapGet (oppMapOf (takeAtPrice ob u side price maxQty).1 side) p'
          = mapGet (oppMapOf ob side) p') := by
  refine ⟨?_, ?_, ?_, ?_⟩
  · intro h
    simp [takeAtPrice, h]
  · intro t ht
    exact takeAtPrice_trades_mem ob u side price maxQty t ht
  · rcases hg : mapGet (oppMapOf ob side) (snapToTick price ob.tickSize) with _ | q
    · simp [takeAtPrice, hg]
    · by_cases hr : takeRemaining maxQty = 0
      · simp [takeAtPrice, hg, hr]
      · cases side with
        | buy =>
          simp only [oppMapOf] at hg
          simp [takeAtPrice, oppMapOf, ownMapOf, hg, hr]
        | sell =>
          simp only [oppMapOf] at hg
          simp [takeAtPrice, oppMapOf, ownMapOf, hg, hr]
  · intro p' hp'
    rcases hg : mapGet (oppMapOf ob side) (snapToTick price ob.tickSize) with _ | q
    · simp [takeAtPrice, hg]
    · by_cases hr : takeRemaining maxQty = 0
      · simp [takeAtPrice, hg, hr]
      · cases side with
        | buy =>
          simp only [oppMapOf] at hg
          simp only [takeAtPrice, oppMapOf, hg, if_neg hr]
          split
          · exact mapGet_mapDelete_ne _ _ _ hp'
          · exact mapGet_mapSet_ne _ _ _ _ hp'
        | sell =>
          simp only [oppMapOf] at hg
          simp only [takeAtPrice, oppMapOf, hg, if_neg hr]
          split
          · exact mapGet_mapDelete_ne _ _ _ hp'
          · exact mapGet_mapSet_ne _ _ _ _ hp'

/-- Witness for C6: on the empty book the level is absent and takeAtPrice
returns 0 unchanged; on a book whose only ask level is at 10, the level
at 42 is untouched by a take at 10. -/
theorem takeAtPrice_single_level_frame_witness :
    takeAtPrice (initBook (1 / 10) 100) 1 Side.buy 10 5
        = (initBook (1 / 10) 100, TakeResult.retZero) ∧
      mapGet (oppMapOf (takeAtPrice obAsk3 2 Side.buy 10 1).1 Side.buy) 42
        = mapGet (oppMapOf obAsk3 Side.buy) 42 :=
  ⟨(takeAtPrice_single_level_frame (initBook (1 / 10) 100) 1 Side.buy 10 5).1 rfl,
    (takeAtPrice_single_level_frame obAsk3 2 Side.buy 10 1).2.2.2 42
      (by with_unfolding_all decide)⟩

/-- C7 counterexample: the dispatcher coercion applies no floor —
max(1, 2.5) is 2.5, not max(1, floor 2.5) = 2 — and a takeAtPrice with
maxQty = 2.5 against 3 resting units executes 2.5 units, more than the
claimed bound floor(2.5) = 2. -/
theorem fractional_maxqty_not_floored :
    clickTradeMaxQty (5 / 2) = 5 / 2 ∧ (2 : ℚ) < 5 / 2 ∧
      (takeAtPrice obAsk3 2 Side.buy 10 (5 / 2)).1.trades
        = [{ price := 10, qty := 5 / 2, buyer := 2, seller := 1 }] := by
  refine ⟨?_, ?_, ?_⟩ <;> with_unfolding_all decide

/-- C7 (amended): the dispatcher coerces maxQty to max(1, input)
(1 substituted for a zero or non-numeric input) and takeAtPrice starts
from remaining = max(0, maxQty); neither applies floor, so a fractional
maxQty such as 2.5 executes up to 2.5 units, including a fractional
final fill. -/
theorem maxqty_coercions_no_floor :
    (∀ x : ℚ, clickTradeMaxQty x = max 1 x) ∧
      (∀ x : ℚ, takeRemaining x = max 0 x) ∧
      (takeAtPrice obAsk3 3 Side.buy 10 (5 / 2)).1.trades
        = [{ price := 10, qty := 5 / 2, buyer := 3, seller := 1 }] := by
  refine ⟨?_, ?_, ?_⟩
  · intro x
    by_cases h : x = 0
    · subst h
      show max (1 : ℚ) (jsOr 0 1) = max 1 0
      rw [show jsOr (0 : ℚ) 1 = 1 by simp [jsOr], max_self,
        max_eq_left (zero_le_one (α := ℚ))]
    · simp [clickTradeMaxQty, jsOr, h]
  · intro x
    by_cases h : x = 0
    · subst h
      simp [takeRemaining, jsOr]
    · simp [takeRemaining, jsOr, h]
  · with_unfolding_all decide

/-- C8: cancelAtPrice is idempotent — the first call removes exactly the
caller's orders at the snapped price on the caller's side and returns
their count, after it no order of the caller rests at that level, and a
second identical call removes nothing, returns 0, and leaves the book
state identical. -/
theorem cancelAtPrice_idempotent (ob : OrderBook) (u : ℕ) (side : Side) (price : ℚ) :
    (cancelAtPrice ob u side price).2
        = ((mapGet (ownMapOf ob side) (snapToTick price ob.tickSize)).getD []).countP
            (fun o => decide (o.userId = u)) ∧
      (((mapGet (ownMapOf (cancelAtPrice ob u side price).1 side)
          (snapToTick price ob.tickSize)).getD []).all
            (fun o => decide (o.userId ≠ u))) = true ∧
      (cancelAtPrice (cancelAtPrice ob u side price).1 u side price).2 = 0 ∧
      (cancelAtPrice (cancelAtPrice ob u side price).1 u side price).1
        = (cancelAtPrice ob u side price).1 := by
  rcases hg : mapGet (ownMapOf ob side) (snapToTick price ob.tickSize) with _ | q
  · refine ⟨?_, ?_, ?_, ?_⟩ <;> simp [cancelAtPrice, hg]
  · have hsum := countP_add_filter_length q u
    by_cases hf : (q.filter (fun o => decide (o.userId ≠ u))).length ≠ 0
    · cases side with
      | buy =>
        simp only [ownMapOf] at hg
        simp only [cancelAtPrice, ownMapOf, hg, if_pos hf, Option.getD_some]
        refine ⟨by omega, ?_, ?_, ?_⟩
        · rw [mapGet_mapSet_self]
          simp only [Option.getD_some, List.all_eq_true]
          intro o ho
          exact (List.mem_filter.mp ho).2
        · simp only [cancelAtPrice, ownMapOf, mapGet_mapSet_self,
            filter_ne_user_idem]
          omega
        · simp only [cancelAtPrice, ownMapOf, mapGet_mapSet_self,
            filter_ne_user_idem, if_pos hf]
          rw [mapSet_same _ _ _ (mapGet_mapSet_self ob.bids _ _)]
      | sell =>
        simp only [ownMapOf] at hg
        simp only [cancelAtPrice, ownMapOf, hg, if_pos hf, Option.getD_some]
        refine ⟨by omega, ?_, ?_, ?_⟩
        · rw [mapGet_mapSet_self]
          simp only [Option.getD_some, List.all_eq_true]
          intro o ho
          exact (List.mem_filter.mp ho).2
        · simp only [cancelAtPrice, ownMapOf, mapGet_mapSet_self,
            filter_ne_user_idem]
          omega
        · simp only [cancelAtPrice, ownMapOf, mapGet_mapSet_self,
            filter_ne_user_idem, if_pos hf]
          rw [mapSet_same _ _ _ (mapGet_mapSet_self ob.asks _ _)]
    · have hnil : q.filter (fun o => decide (o.userId ≠ u)) = [] :=
        List.eq_nil_of_length_eq_zero (by omega)
      cases side with
      | buy =>
        simp only [ownMapOf] at hg
        simp only [cancelAtPrice, ownMapOf, hg, if_neg hf, Option.getD_some]
        refine ⟨?_, ?_, ?_, ?_⟩
        · rw [hnil] at hsum ⊢
          simp only [List.length_nil, Nat.sub_zero, Nat.add_zero] at hsum ⊢
          omega
        · rw [mapGet_mapDelete_self]
          simp
        · simp [cancelAtPrice, ownMapOf, mapGet_mapDelete_self]
        · simp [cancelAtPrice, ownMapOf, mapGet_mapDelete_self]
      | sell =>
        simp only [ownMapOf] at hg
        simp only [cancelAtPrice, ownMapOf, hg, if_neg hf, Option.getD_some]
        refine ⟨?_, ?_, ?_, ?_⟩
        · rw [hnil] at hsum ⊢
          simp only [List.length_nil, Nat.sub_zero, Nat.add_zero] at hsum ⊢
          omega
        · rw [mapGet_mapDelete_self]
          simp
        · simp [cancelAtPrice, ownMapOf, mapGet_mapDelete_self]
        · simp [cancelAtPrice, ownMapOf, mapGet_mapDelete_self]

/-- C9: none of the three book operations ever leaves an empty price
level in either side map: starting from any book with no empty levels,
the books after placeLimit, takeAtPrice and cancelAtPrice again have no
empty levels. -/
theorem no_empty_levels_preserved (ob : OrderBook) (u : ℕ) (side : Side)
    (price qty maxQty : ℚ) (hb : noEmptyMap ob.bids) (ha : noEmptyMap ob.asks) :
    (noEmptyMap (placeLimit ob u side price qty).1.bids ∧
      noEmptyMap (placeLimit ob u side price qty).1.asks) ∧
    (noEmptyMap (takeAtPrice ob u side price maxQty).1.bids ∧
      noEmptyMap (takeAtPrice ob u side price maxQty).1.asks) ∧
    (noEmptyMap (cancelAtPrice ob u side price).1.bids ∧
      noEmptyMap (cancelAtPrice ob u side price).1.asks) :=
  ⟨placeLimit_noEmpty ob u side price qty hb ha,
    takeAtPrice_noEmpty ob u side price maxQty hb ha,
    cancelAtPrice_noEmpty ob u side price hb ha⟩

/-- Witness for C9 at a concrete book with one non-empty ask level. -/
theorem no_empty_levels_preserved_witness :
    (noEmptyMap (placeLimit obAsk3 2 Side.buy 10 1).1.bids ∧
      noEmptyMap (placeLimit obAsk3 2 Side.buy 10 1).1.asks) ∧
    (noEmptyMap (takeAtPrice obAsk3 2 Side.buy 10 1).1.bids ∧
      noEmptyMap (takeAtPrice obAsk3 2 Side.buy 10 1).1.asks) ∧
    (noEmptyMap (cancelAtPrice obAsk3 2 Side.buy 10).1.bids ∧
      noEmptyMap (cancelAtPrice obAsk3 2 Side.buy 10).1.asks) :=
  no_empty_levels_preserved obAsk3 2 Side.buy 10 1 1 (by decide) (by decide)

/-- C10 (implicit): self-matching is not prevented — user 7's incoming
buy fills against user 7's own resting sell, emitting a tape trade with
buyer = seller = 7 while user 7's position stays at qty 0, cash 0; in
general any fill with buyer = seller leaves every position unchanged yet
still records the trade. -/
theorem self_match_permitted :
    ((placeLimit (placeLimit (initBook (1 / 10) 100) 7 Side.sell 10 5).1
        7 Side.buy 10 5).1.trades
      = [{ price := 10, qty := 5, buyer := 7, seller := 7 }] ∧
     posGet (placeLimit (placeLimit (initBook (1 / 10) 100) 7 Side.sell 10 5).1
        7 Side.buy 10 5).1.positions 7 = { qty := 0, cash := 0 } ∧
     (placeLimit (placeLimit (initBook (1 / 10) 100) 7 Side.sell 10 5).1
        7 Side.buy 10 5).1.bids = [] ∧
     (placeLimit (placeLimit (initBook (1 / 10) 100) 7 Side.sell 10 5).1
        7 Side.buy 10 5).1.asks = []) ∧
    (∀ (px q : ℚ) (w v : ℕ) (st : Fills),
      posGet (applyFill px q w w st).positions v = posGet st.positions v ∧
      (applyFill px q w w st).trades
        = recordTrade st.trades { price := px, qty := q, buyer := w, seller := w }) := by
  constructor
  · refine ⟨?_, ?_, ?_, ?_⟩ <;> with_unfolding_all decide
  · intro px q w v st
    exact ⟨applyFill_self_posGet px q w v st, rfl⟩

end TradingSoft
